import Mathlib

/-!
Shallow embedding of the font-family merge and application engine of
`egui-system-fonts` (file `src/egui-system-fonts/src/lib.rs`).

The core operations embedded here are:

* `read_font_bytes`   (lib.rs lines 258-269), the font loader;
* `insert_front`      (lib.rs lines 271-277);
* `insert_back`       (lib.rs lines 279-285);
* `set_found_fonts`   (lib.rs lines 189-221), replace-mode install;
* `append_found_fonts`(lib.rs lines 223-256), extend-mode install;
* `extend_found_fonts`, the shared body of `extend_auto` (lines 126-130)
  and `extend_with_presets` (lines 182-186): conditional commit of the
  mutated definitions to the context.

External collaborators are modelled at their interface boundary:

* the filesystem is a function `fs : String → Option (List Nat)` giving the
  result of `std::fs::read` for each path (`none` models any I/O error);
* font bytes (`Vec<u8>` / `egui::FontData`) are `List Nat`;
* `egui::FontDefinitions` is a structure with a `font_data` map embedded as
  an association list ordered by key (a `BTreeMap<String, _>`) and a
  `families` map `BTreeMap<FontFamily, Vec<String>>` embedded as a total
  function `FontFamily → List String` (an absent entry and an entry holding
  the empty list are observationally identical through the `entry(..).or_default()`
  interface the source uses);
* `egui::Context` is a structure recording the currently active
  `FontDefinitions` plus a counter of `set_fonts` commit calls.

The Rust `for` loops over the candidate list are embedded as structural
recursions (`setLoop`, `appendLoop`) that thread the mutated
`FontDefinitions` and build the `installed_names` / `keys_in_priority`
vectors in push order; the loops over `keys_in_priority` are embedded as
`List.foldl` of the loop body (`frontStep`, `backStep`).
-/

/-- Byte source of a candidate font: `system_fonts::FoundFontSource`,
either a filesystem path or an in-memory buffer. -/
inductive FoundFontSource where
  | Path (path : String)
  | Bytes (bytes : List Nat)
deriving DecidableEq

/-- A resolver candidate: `system_fonts::FoundFont` with its stable key,
human-readable family name and byte source. -/
structure FoundFont where
  key : String
  family : String
  source : FoundFontSource
deriving DecidableEq

/-- Family role of the rendering context: `egui::FontFamily`. -/
inductive FontFamily where
  | Proportional
  | Monospace
  | Name (name : String)
deriving DecidableEq

/-- Keys of a `font_data` association list, in storage order. -/
def keysOf (m : List (String × List Nat)) : List String :=
  m.map Prod.fst

/-- Membership test of `BTreeMap::contains_key` on the embedded map. -/
def containsKey (m : List (String × List Nat)) (k : String) : Prop :=
  k ∈ keysOf m

instance (m : List (String × List Nat)) (k : String) : Decidable (containsKey m k) :=
  inferInstanceAs (Decidable (k ∈ keysOf m))

/-- Lexicographic strict order on character lists, the order `BTreeMap`
keeps its `String` keys in. -/
def charListLt : List Char → List Char → Bool
  | _, [] => false
  | [], _ :: _ => true
  | a :: as, b :: bs => a < b || (a = b && charListLt as bs)

/-- Lexicographic strict order on strings. -/
def strLt (a b : String) : Bool :=
  charListLt a.data b.data

/-- `BTreeMap::insert` on the embedded map: replaces the value when the key
is present, otherwise adds the pair keeping the list ordered by key. -/
def btInsert (k : String) (v : List Nat) : List (String × List Nat) → List (String × List Nat)
  | [] => [(k, v)]
  | (k', v') :: rest =>
    if strLt k k' then (k, v) :: (k', v') :: rest
    else if k = k' then (k, v) :: rest
    else (k', v') :: btInsert k v rest

/-- `BTreeMap::get` on the embedded map. -/
def lookupFD (m : List (String × List Nat)) (k : String) : Option (List Nat) :=
  match m with
  | [] => none
  | (k', v) :: rest => if k = k' then some v else lookupFD rest k

/-- The mutable target structure `egui::FontDefinitions`: the byte store
`font_data` and the per-role priority lists `families`. -/
structure FontDefinitions where
  font_data : List (String × List Nat)
  families : FontFamily → List String

/-- Modelled from the spec: `egui::FontDefinitions::default()` is external
to this repository; the spec specifies replace-mode install as starting
from an empty `FontDefinitions` (no font data, no family entries). -/
def FontDefinitions.default : FontDefinitions :=
  { font_data := [], families := fun _ => [] }

/-- The rendering context `egui::Context`, modelled at its interface
boundary: the currently active font definitions plus a count of
`set_fonts` commit calls received. -/
structure Context where
  active : FontDefinitions
  commits : Nat

/-- `egui::Context::set_fonts`: atomically replaces the active font
definitions (and is counted as one commit call). -/
def Context.set_fonts (ctx : Context) (defs : FontDefinitions) : Context :=
  { active := defs, commits := ctx.commits + 1 }

/-- The font loader `read_font_bytes` (lib.rs lines 258-269): a `Path`
source is read through the filesystem (`none` on any I/O error, the debug
log is ignored by the model); a `Bytes` source always yields a copy of the
embedded buffer. -/
def read_font_bytes (fs : String → Option (List Nat)) : FoundFontSource → Option (List Nat)
  | .Path path => fs path
  | .Bytes b => some b

/-- `insert_front` (lib.rs lines 271-277): fetch the role's list, creating
it empty when absent; do nothing if the key is already present; otherwise
insert the key at index 0. -/
def insert_front (families : FontFamily → List String) (family : FontFamily) (key : String) :
    FontFamily → List String :=
  let list := families family
  if key ∈ list then families
  else fun g => if g = family then key :: list else families g

/-- `insert_back` (lib.rs lines 279-285): fetch the role's list, creating
it empty when absent; do nothing if the key is already present; otherwise
push the key at the back. -/
def insert_back (families : FontFamily → List String) (family : FontFamily) (key : String) :
    FontFamily → List String :=
  let list := families family
  if key ∈ list then families
  else fun g => if g = family then list ++ [key] else families g

/-- Body of the loop at lib.rs lines 212-215: one `insert_front` into the
Proportional role then one into the Monospace role, for one key. -/
def frontStep (d : FontDefinitions) (key : String) : FontDefinitions :=
  { d with families :=
      insert_front (insert_front d.families FontFamily.Proportional key) FontFamily.Monospace key }

/-- Body of the loop at lib.rs lines 250-253: one `insert_back` into the
Proportional role then one into the Monospace role, for one key. -/
def backStep (d : FontDefinitions) (key : String) : FontDefinitions :=
  { d with families :=
      insert_back (insert_back d.families FontFamily.Proportional key) FontFamily.Monospace key }

/-- Collection loop of `set_found_fonts` (lib.rs lines 195-205): for each
candidate, read its bytes (skipping the candidate on failure), insert them
under its key into `font_data`, and push the key and the family name. The
result is the mutated definitions, `installed_names` and
`keys_in_priority`, both in push order. -/
def setLoop (fs : String → Option (List Nat)) (defs : FontDefinitions) :
    List FoundFont → FontDefinitions × List String × List String
  | [] => (defs, [], [])
  | f :: rest =>
    match read_font_bytes fs f.source with
    | none => setLoop fs defs rest
    | some bytes =>
      match setLoop fs { defs with font_data := btInsert f.key bytes defs.font_data } rest with
      | (d, names, keys) => (d, f.family :: names, f.key :: keys)

/-- Collection loop of `append_found_fonts` (lib.rs lines 230-244): like
the replace-mode loop, but a candidate whose key is already present in
`font_data` is skipped before its bytes are ever read. -/
def appendLoop (fs : String → Option (List Nat)) (defs : FontDefinitions) :
    List FoundFont → FontDefinitions × List String × List String
  | [] => (defs, [], [])
  | f :: rest =>
    if containsKey defs.font_data f.key then appendLoop fs defs rest
    else
      match read_font_bytes fs f.source with
      | none => appendLoop fs defs rest
      | some bytes =>
        match appendLoop fs { defs with font_data := btInsert f.key bytes defs.font_data } rest with
        | (d, names, keys) => (d, f.family :: names, f.key :: keys)

/-- Replace-mode install `set_found_fonts` (lib.rs lines 189-221): start
from the default definitions, run the collection loop; when nothing was
installed return the empty list leaving the context untouched; otherwise
insert every collected key at the front of the Proportional and Monospace
roles, iterating the keys in reverse collection order, commit the new
definitions to the context and return the installed family names. -/
def set_found_fonts (fs : String → Option (List Nat)) (ctx : Context)
    (fonts : List FoundFont) : Context × List String :=
  match setLoop fs FontDefinitions.default fonts with
  | (defs, installed_names, keys_in_priority) =>
    if installed_names = [] then (ctx, [])
    else
      (Context.set_fonts ctx (keys_in_priority.reverse.foldl frontStep defs), installed_names)

/-- Extend-mode install `append_found_fonts` (lib.rs lines 223-256): run
the collection loop on the caller-supplied definitions; when nothing was
installed return the empty list; otherwise push every collected key at the
back of the Proportional and Monospace roles in collection order and
return the installed family names together with the mutated definitions. -/
def append_found_fonts (fs : String → Option (List Nat)) (defs : FontDefinitions)
    (fonts : List FoundFont) : FontDefinitions × List String :=
  match appendLoop fs defs fonts with
  | (defs1, installed_names, keys_in_priority) =>
    if installed_names = [] then (defs1, [])
    else (keys_in_priority.foldl backStep defs1, installed_names)

/-- Shared body of `extend_auto` (lib.rs lines 126-130) and
`extend_with_presets` (lib.rs lines 182-186): run extend-mode install and
commit the mutated definitions to the context only when the installed-names
list is non-empty. -/
def extend_found_fonts (fs : String → Option (List Nat)) (ctx : Context)
    (defs : FontDefinitions) (fonts : List FoundFont) :
    Context × FontDefinitions × List String :=
  match append_found_fonts fs defs fonts with
  | (defs2, installed) =>
    (if installed = [] then ctx else Context.set_fonts ctx defs2, defs2, installed)

/-- Candidates of a list whose byte source loads successfully, in order. -/
def loadedFonts (fs : String → Option (List Nat)) (fonts : List FoundFont) : List FoundFont :=
  fonts.filter (fun f => (read_font_bytes fs f.source).isSome)

/-- Keys of the successfully loading candidates, in resolver order
(duplicates kept). -/
def loadedKeys (fs : String → Option (List Nat)) (fonts : List FoundFont) : List String :=
  (loadedFonts fs fonts).map FoundFont.key

/-- Family names of the successfully loading candidates, in resolver
order. -/
def loadedNames (fs : String → Option (List Nat)) (fonts : List FoundFont) : List String :=
  (loadedFonts fs fonts).map FoundFont.family

/-- Deduplication keeping the first occurrence of each key, relative to a
list of keys already seen (only the membership of `seen` matters). -/
def dedupSeen (seen : List String) : List String → List String
  | [] => []
  | k :: l => if k ∈ seen then dedupSeen seen l else k :: dedupSeen (k :: seen) l

/-- Deduplication keeping each key at the position of its first
occurrence. -/
def dedupKeepFirst (l : List String) : List String :=
  dedupSeen [] l

/-- Deduplication keeping each key at the position of its last
occurrence. -/
def dedupKeepLast (l : List String) : List String :=
  (dedupSeen [] l.reverse).reverse

/-- Fold of the front-insertion step of `insert_front` over a key list, on
one role's sequence. -/
def consFold (s : List String) : List String → List String
  | [] => s
  | k :: l => if k ∈ s then consFold s l else consFold (k :: s) l

/-- Fold of the back-insertion step of `insert_back` over a key list, on
one role's sequence. -/
def pushFold (s : List String) : List String → List String
  | [] => s
  | k :: l => if k ∈ s then pushFold s l else pushFold (s ++ [k]) l

/-- Structural invariant: every key in any family-role sequence exists in
`font_data`. -/
def famKeysOK (d : FontDefinitions) : Prop :=
  ∀ g k, k ∈ d.families g → containsKey d.font_data k

/-- Structural invariant: no key occurs twice in the same family-role
sequence. -/
def famNodup (d : FontDefinitions) : Prop :=
  ∀ g, (d.families g).Nodup

/-- A filesystem on which every read fails. -/
def fsNone : String → Option (List Nat) := fun _ => none

/-- A context holding the default definitions, with no commit received yet. -/
def ctx0 : Context :=
  { active := FontDefinitions.default, commits := 0 }

/-- Concrete candidate list in which the key "a" occurs in two successfully
loading candidates (in-memory sources always load), around a candidate with
key "b". -/
def dupFonts : List FoundFont :=
  [⟨"a", "A", .Bytes [1]⟩, ⟨"b", "B", .Bytes [2]⟩, ⟨"a", "A", .Bytes [1]⟩]

/-- Concrete candidate list with three pairwise distinct keys, all loading
successfully. -/
def abcFonts : List FoundFont :=
  [⟨"a", "A", .Bytes [1]⟩, ⟨"b", "B", .Bytes [2]⟩, ⟨"c", "C", .Bytes [3]⟩]

/-- Concrete definitions whose Proportional sequence is the single key "x"
backed by a font-data entry. -/
def defsX : FontDefinitions :=
  { font_data := [("x", [7])],
    families := fun g => if g = FontFamily.Proportional then ["x"] else [] }

/-- Filesystem of the replace-mode scenario: the Korean font file exists,
every other path (in particular the Japanese font file) fails to read. -/
def notoFs : String → Option (List Nat) :=
  fun p => if p = "fonts/NotoSansKR.ttf" then some [0, 1, 0, 0] else none

/-- Candidate list of the replace-mode scenario: "noto-kr" backed by the
readable path, "noto-jp" backed by the missing path. -/
def notoFonts : List FoundFont :=
  [⟨"noto-kr", "Noto Sans KR", .Path "fonts/NotoSansKR.ttf"⟩,
   ⟨"noto-jp", "Noto Sans JP", .Path "fonts/NotoSansJP.ttf"⟩]

theorem mem_keysOf_btInsert {m : List (String × List Nat)} {k k' : String} {v : List Nat} :
    k' ∈ keysOf (btInsert k v m) ↔ k' = k ∨ k' ∈ keysOf m := by
  induction m with
  | nil => simp [btInsert, keysOf]
  | cons e rest ih =>
    obtain ⟨k'', v''⟩ := e
    by_cases h1 : strLt k k'' = true
    · simp [btInsert, h1, keysOf]
    · by_cases h2 : k = k''
      · subst h2
        simp [btInsert, h1, keysOf]
      · simp only [btInsert, h1, if_false, h2, if_true, Bool.false_eq_true, if_neg]
        simp [keysOf] at ih ⊢
        rw [ih]
        tauto

theorem lookupFD_some_mem {m : List (String × List Nat)} {k : String} {v : List Nat}
    (h : lookupFD m k = some v) : k ∈ keysOf m := by
  induction m with
  | nil => simp [lookupFD] at h
  | cons e rest ih =>
    obtain ⟨k', v'⟩ := e
    by_cases hk : k = k'
    · simp [keysOf, hk]
    · simp only [lookupFD, hk, if_neg, ite_false] at h
      simp [keysOf, hk]
      simpa [keysOf] using ih h

theorem lookupFD_btInsert_ne {m : List (String × List Nat)} {k k' : String} {v : List Nat}
    (h : k' ≠ k) : lookupFD (btInsert k v m) k' = lookupFD m k' := by
  induction m with
  | nil => simp [btInsert, lookupFD, h]
  | cons e rest ih =>
    obtain ⟨k'', v''⟩ := e
    by_cases h1 : strLt k k'' = true
    · simp [btInsert, h1, lookupFD, h]
    · by_cases h2 : k = k''
      · subst h2
        simp [btInsert, h1, lookupFD, h]
      · simp [btInsert, h1, h2, lookupFD, ih]

theorem insert_front_apply (fams : FontFamily → List String) (fam : FontFamily) (key : String)
    (g : FontFamily) :
    insert_front fams fam key g =
      if g = fam then (if key ∈ fams fam then fams fam else key :: fams fam) else fams g := by
  unfold insert_front
  by_cases hk : key ∈ fams fam
  · simp only [hk, if_true]
    by_cases hg : g = fam
    · subst hg; simp
    · simp [hg]
  · simp [hk]

theorem insert_back_apply (fams : FontFamily → List String) (fam : FontFamily) (key : String)
    (g : FontFamily) :
    insert_back fams fam key g =
      if g = fam then (if key ∈ fams fam then fams fam else fams fam ++ [key]) else fams g := by
  unfold insert_back
  by_cases hk : key ∈ fams fam
  · simp only [hk, if_true]
    by_cases hg : g = fam
    · subst hg; simp
    · simp [hg]
  · simp [hk]

theorem frontStep_font_data (d : FontDefinitions) (key : String) :
    (frontStep d key).font_data = d.font_data := rfl

theorem backStep_font_data (d : FontDefinitions) (key : String) :
    (backStep d key).font_data = d.font_data := rfl

theorem frontStep_families_P (d : FontDefinitions) (key : String) :
    (frontStep d key).families FontFamily.Proportional =
      if key ∈ d.families FontFamily.Proportional then d.families FontFamily.Proportional
      else key :: d.families FontFamily.Proportional := by
  show (insert_front (insert_front d.families FontFamily.Proportional key)
      FontFamily.Monospace key) FontFamily.Proportional = _
  simp [insert_front_apply]

theorem frontStep_families_M (d : FontDefinitions) (key : String) :
    (frontStep d key).families FontFamily.Monospace =
      if key ∈ d.families FontFamily.Monospace then d.families FontFamily.Monospace
      else key :: d.families FontFamily.Monospace := by
  show (insert_front (insert_front d.families FontFamily.Proportional key)
      FontFamily.Monospace key) FontFamily.Monospace = _
  simp [insert_front_apply]

theorem frontStep_families_other (d : FontDefinitions) (key : String) (g : FontFamily)
    (hP : g ≠ FontFamily.Proportional) (hM : g ≠ FontFamily.Monospace) :
    (frontStep d key).families g = d.families g := by
  show (insert_front (insert_front d.families FontFamily.Proportional key)
      FontFamily.Monospace key) g = _
  simp [insert_front_apply, hP, hM]

theorem backStep_families_P (d : FontDefinitions) (key : String) :
    (backStep d key).families FontFamily.Proportional =
      if key ∈ d.families FontFamily.Proportional then d.families FontFamily.Proportional
      else d.families FontFamily.Proportional ++ [key] := by
  show (insert_back (insert_back d.families FontFamily.Proportional key)
      FontFamily.Monospace key) FontFamily.Proportional = _
  simp [insert_back_apply]

theorem backStep_families_M (d : FontDefinitions) (key : String) :
    (backStep d key).families FontFamily.Monospace =
      if key ∈ d.families FontFamily.Monospace then d.families FontFamily.Monospace
      else d.families FontFamily.Monospace ++ [key] := by
  show (insert_back (insert_back d.families FontFamily.Proportional key)
      FontFamily.Monospace key) FontFamily.Monospace = _
  simp [insert_back_apply]

theorem backStep_families_other (d : FontDefinitions) (key : String) (g : FontFamily)
    (hP : g ≠ FontFamily.Proportional) (hM : g ≠ FontFamily.Monospace) :
    (backStep d key).families g = d.families g := by
  show (insert_back (insert_back d.families FontFamily.Proportional key)
      FontFamily.Monospace key) g = _
  simp [insert_back_apply, hP, hM]

theorem foldl_frontStep_font_data (l : List String) (d : FontDefinitions) :
    (l.foldl frontStep d).font_data = d.font_data := by
  induction l generalizing d with
  | nil => rfl
  | cons k l ih => simpa [List.foldl_cons, frontStep_font_data] using ih (frontStep d k)

theorem foldl_backStep_font_data (l : List String) (d : FontDefinitions) :
    (l.foldl backStep d).font_data = d.font_data := by
  induction l generalizing d with
  | nil => rfl
  | cons k l ih => simpa [List.foldl_cons, backStep_font_data] using ih (backStep d k)

theorem foldl_frontStep_families_P (l : List String) (d : FontDefinitions) :
    (l.foldl frontStep d).families FontFamily.Proportional =
      consFold (d.families FontFamily.Proportional) l := by
  induction l generalizing d with
  | nil => rfl
  | cons k l ih =>
    rw [List.foldl_cons, ih (frontStep d k), frontStep_families_P, consFold]
    split <;> rfl

theorem foldl_frontStep_families_M (l : List String) (d : FontDefinitions) :
    (l.foldl frontStep d).families FontFamily.Monospace =
      consFold (d.families FontFamily.Monospace) l := by
  induction l generalizing d with
  | nil => rfl
  | cons k l ih =>
    rw [List.foldl_cons, ih (frontStep d k), frontStep_families_M, consFold]
    split <;> rfl

theorem foldl_frontStep_families_other (l : List String) (d : FontDefinitions) (g : FontFamily)
    (hP : g ≠ FontFamily.Proportional) (hM : g ≠ FontFamily.Monospace) :
    (l.foldl frontStep d).families g = d.families g := by
  induction l generalizing d with
  | nil => rfl
  | cons k l ih =>
    rw [List.foldl_cons, ih (frontStep d k), frontStep_families_other d k g hP hM]

theorem foldl_backStep_families_P (l : List String) (d : FontDefinitions) :
    (l.foldl backStep d).families FontFamily.Proportional =
      pushFold (d.families FontFamily.Proportional) l := by
  induction l generalizing d with
  | nil => rfl
  | cons k l ih =>
    rw [List.foldl_cons, ih (backStep d k), backStep_families_P, pushFold]
    split <;> rfl

theorem foldl_backStep_families_M (l : List String) (d : FontDefinitions) :
    (l.foldl backStep d).families FontFamily.Monospace =
      pushFold (d.families FontFamily.Monospace) l := by
  induction l generalizing d with
  | nil => rfl
  | cons k l ih =>
    rw [List.foldl_cons, ih (backStep d k), backStep_families_M, pushFold]
    split <;> rfl

theorem foldl_backStep_families_other (l : List String) (d : FontDefinitions) (g : FontFamily)
    (hP : g ≠ FontFamily.Proportional) (hM : g ≠ FontFamily.Monospace) :
    (l.foldl backStep d).families g = d.families g := by
  induction l generalizing d with
  | nil => rfl
  | cons k l ih =>
    rw [List.foldl_cons, ih (backStep d k), backStep_families_other d k g hP hM]

theorem dedupSeen_congr (l : List String) (s₁ s₂ : List String)
    (h : ∀ x, x ∈ s₁ ↔ x ∈ s₂) : dedupSeen s₁ l = dedupSeen s₂ l := by
  induction l generalizing s₁ s₂ with
  | nil => rfl
  | cons k l ih =>
    by_cases hk : k ∈ s₁
    · rw [dedupSeen, if_pos hk, dedupSeen, if_pos ((h k).1 hk)]
      exact ih s₁ s₂ h
    · rw [dedupSeen, if_neg hk, dedupSeen, if_neg (fun hc => hk ((h k).2 hc))]
      refine congrArg _ (ih (k :: s₁) (k :: s₂) fun x => ?_)
      simp [h x]

theorem mem_dedupSeen {l s : List String} {x : String} (h : x ∈ dedupSeen s l) : x ∈ l := by
  induction l generalizing s with
  | nil => simp [dedupSeen] at h
  | cons k l ih =>
    by_cases hk : k ∈ s
    · rw [dedupSeen, if_pos hk] at h
      exact List.mem_cons_of_mem k (ih h)
    · rw [dedupSeen, if_neg hk] at h
      rcases List.mem_cons.1 h with h | h
      · exact h ▸ List.mem_cons_self k l
      · exact List.mem_cons_of_mem k (ih h)

theorem dedupSeen_not_mem_seen {l s : List String} {x : String} (h : x ∈ dedupSeen s l) :
    x ∉ s := by
  induction l generalizing s with
  | nil => simp [dedupSeen] at h
  | cons k l ih =>
    by_cases hk : k ∈ s
    · rw [dedupSeen, if_pos hk] at h
      exact ih h
    · rw [dedupSeen, if_neg hk] at h
      rcases List.mem_cons.1 h with h | h
      · exact h ▸ hk
      · intro hx
        exact ih h (List.mem_cons_of_mem k hx)

theorem dedupSeen_nodup (l s : List String) : (dedupSeen s l).Nodup := by
  induction l generalizing s with
  | nil => exact List.nodup_nil
  | cons k l ih =>
    by_cases hk : k ∈ s
    · rw [dedupSeen, if_pos hk]
      exact ih s
    · rw [dedupSeen, if_neg hk]
      refine List.nodup_cons.2 ⟨fun hc => ?_, ih (k :: s)⟩
      exact dedupSeen_not_mem_seen hc (List.mem_cons_self k s)

theorem dedupSeen_of_disjoint_nodup {l s : List String} (hd : ∀ x ∈ l, x ∉ s)
    (hn : l.Nodup) : dedupSeen s l = l := by
  induction l generalizing s with
  | nil => rfl
  | cons k l ih =>
    rw [dedupSeen, if_neg (hd k (List.mem_cons_self k l))]
    obtain ⟨hk, hn'⟩ := List.nodup_cons.1 hn
    refine congrArg _ (ih (fun x hx => ?_) hn')
    intro hc
    rcases List.mem_cons.1 hc with h | h
    · exact hk (h ▸ hx)
    · exact hd x (List.mem_cons_of_mem k hx) h

theorem consFold_eq_dedupSeen (l s : List String) :
    consFold s l = (dedupSeen s l).reverse ++ s := by
  induction l generalizing s with
  | nil => rfl
  | cons k l ih =>
    by_cases hk : k ∈ s
    · rw [consFold, if_pos hk, dedupSeen, if_pos hk]
      exact ih s
    · rw [consFold, if_neg hk, dedupSeen, if_neg hk, ih (k :: s)]
      simp

theorem pushFold_eq_dedupSeen (l s : List String) :
    pushFold s l = s ++ dedupSeen s l := by
  induction l generalizing s with
  | nil => simp [pushFold, dedupSeen]
  | cons k l ih =>
    by_cases hk : k ∈ s
    · rw [pushFold, if_pos hk, dedupSeen, if_pos hk]
      exact ih s
    · rw [pushFold, if_neg hk, dedupSeen, if_neg hk, ih (s ++ [k]),
        dedupSeen_congr l (s ++ [k]) (k :: s) (fun x => by simp; tauto)]
      simp

theorem mem_consFold {l s : List String} {x : String} (h : x ∈ consFold s l) :
    x ∈ s ∨ x ∈ l := by
  rw [consFold_eq_dedupSeen] at h
  rcases List.mem_append.1 h with h | h
  · exact Or.inr (mem_dedupSeen (List.mem_reverse.1 h))
  · exact Or.inl h

theorem mem_pushFold {l s : List String} {x : String} (h : x ∈ pushFold s l) :
    x ∈ s ∨ x ∈ l := by
  rw [pushFold_eq_dedupSeen] at h
  rcases List.mem_append.1 h with h | h
  · exact Or.inl h
  · exact Or.inr (mem_dedupSeen h)

theorem consFold_nodup {l s : List String} (hs : s.Nodup) : (consFold s l).Nodup := by
  rw [consFold_eq_dedupSeen]
  refine List.Nodup.append (List.nodup_reverse.2 (dedupSeen_nodup l s)) hs ?_
  intro x hx hxs
  exact dedupSeen_not_mem_seen (List.mem_reverse.1 hx) hxs

theorem pushFold_nodup {l s : List String} (hs : s.Nodup) : (pushFold s l).Nodup := by
  rw [pushFold_eq_dedupSeen]
  refine List.Nodup.append hs (dedupSeen_nodup l s) ?_
  intro x hxs hx
  exact dedupSeen_not_mem_seen hx hxs

theorem consFold_of_disjoint_nodup {l s : List String} (hd : ∀ x ∈ l, x ∉ s)
    (hn : l.Nodup) : consFold s l = l.reverse ++ s := by
  rw [consFold_eq_dedupSeen, dedupSeen_of_disjoint_nodup hd hn]

theorem pushFold_of_disjoint_nodup {l s : List String} (hd : ∀ x ∈ l, x ∉ s)
    (hn : l.Nodup) : pushFold s l = s ++ l := by
  rw [pushFold_eq_dedupSeen, dedupSeen_of_disjoint_nodup hd hn]

theorem setLoop_families (fs : String → Option (List Nat)) (l : List FoundFont)
    (d : FontDefinitions) : (setLoop fs d l).1.families = d.families := by
  induction l generalizing d with
  | nil => rfl
  | cons f l ih =>
    cases hr : read_font_bytes fs f.source with
    | none =>
      simp only [setLoop, hr]
      exact ih d
    | some bytes =>
      simp only [setLoop, hr]
      have h := ih { d with font_data := btInsert f.key bytes d.font_data }
      rcases hsl : setLoop fs { d with font_data := btInsert f.key bytes d.font_data } l
        with ⟨a, b, c⟩
      rw [hsl] at h
      exact h

theorem setLoop_keys (fs : String → Option (List Nat)) (l : List FoundFont)
    (d : FontDefinitions) : (setLoop fs d l).2.2 = loadedKeys fs l := by
  induction l generalizing d with
  | nil => rfl
  | cons f l ih =>
    cases hr : read_font_bytes fs f.source with
    | none =>
      simp only [setLoop, hr]
      rw [ih d]
      simp [loadedKeys, loadedFonts, List.filter_cons, hr]
    | some bytes =>
      simp only [setLoop, hr]
      have h := ih { d with font_data := btInsert f.key bytes d.font_data }
      rcases hsl : setLoop fs { d with font_data := btInsert f.key bytes d.font_data } l
        with ⟨a, b, c⟩
      rw [hsl] at h
      rw [h]
      simp [loadedKeys, loadedFonts, List.filter_cons, hr]

theorem setLoop_names (fs : String → Option (List Nat)) (l : List FoundFont)
    (d : FontDefinitions) : (setLoop fs d l).2.1 = loadedNames fs l := by
  induction l generalizing d with
  | nil => rfl
  | cons f l ih =>
    cases hr : read_font_bytes fs f.source with
    | none =>
      simp only [setLoop, hr]
      rw [ih d]
      simp [loadedNames, loadedFonts, List.filter_cons, hr]
    | some bytes =>
      simp only [setLoop, hr]
      have h := ih { d with font_data := btInsert f.key bytes d.font_data }
      rcases hsl : setLoop fs { d with font_data := btInsert f.key bytes d.font_data } l
        with ⟨a, b, c⟩
      rw [hsl] at h
      rw [h]
      simp [loadedNames, loadedFonts, List.filter_cons, hr]

theorem setLoop_contains_mono (fs : String → Option (List Nat)) (l : List FoundFont)
    (d : FontDefinitions) (k : String) (h : containsKey d.font_data k) :
    containsKey (setLoop fs d l).1.font_data k := by
  induction l generalizing d with
  | nil => exact h
  | cons f l ih =>
    cases hr : read_font_bytes fs f.source with
    | none =>
      simp only [setLoop, hr]
      exact ih d h
    | some bytes =>
      simp only [setLoop, hr]
      have h2 := ih { d with font_data := btInsert f.key bytes d.font_data }
        (mem_keysOf_btInsert.2 (Or.inr h))
      rcases hsl : setLoop fs { d with font_data := btInsert f.key bytes d.font_data } l
        with ⟨a, b, c⟩
      rw [hsl] at h2
      exact h2

theorem setLoop_contains_of_loaded (fs : String → Option (List Nat)) (l : List FoundFont)
    (d : FontDefinitions) (k : String) (h : k ∈ loadedKeys fs l) :
    containsKey (setLoop fs d l).1.font_data k := by
  induction l generalizing d with
  | nil => simp [loadedKeys, loadedFonts] at h
  | cons f l ih =>
    cases hr : read_font_bytes fs f.source with
    | none =>
      simp only [setLoop, hr]
      refine ih d ?_
      simpa [loadedKeys, loadedFonts, List.filter_cons, hr] using h
    | some bytes =>
      simp only [setLoop, hr]
      have hmem : k = f.key ∨ k ∈ loadedKeys fs l := by
        simpa [loadedKeys, loadedFonts, List.filter_cons, hr] using h
      have h2 : containsKey (setLoop fs
          { d with font_data := btInsert f.key bytes d.font_data } l).1.font_data k := by
        rcases hmem with hk | hk
        · exact setLoop_contains_mono fs l _ k (mem_keysOf_btInsert.2 (Or.inl hk))
        · exact ih { d with font_data := btInsert f.key bytes d.font_data } hk
      rcases hsl : setLoop fs { d with font_data := btInsert f.key bytes d.font_data } l
        with ⟨a, b, c⟩
      rw [hsl] at h2
      exact h2

theorem setLoop_skip (fs : String → Option (List Nat)) (f : FoundFont) (post : List FoundFont)
    (hf : read_font_bytes fs f.source = none) (pre : List FoundFont) (d : FontDefinitions) :
    setLoop fs d (pre ++ f :: post) = setLoop fs d (pre ++ post) := by
  induction pre generalizing d with
  | nil =>
    simp only [List.nil_append, setLoop, hf]
  | cons g pre ih =>
    cases hr : read_font_bytes fs g.source with
    | none =>
      simp only [List.cons_append, setLoop, hr]
      exact ih d
    | some bytes =>
      simp only [List.cons_append, setLoop, hr, List.append_eq]
      rw [ih { d with font_data := btInsert g.key bytes d.font_data }]

theorem setLoop_allfail (fs : String → Option (List Nat)) (l : List FoundFont)
    (h : ∀ f ∈ l, read_font_bytes fs f.source = none) (d : FontDefinitions) :
    setLoop fs d l = (d, [], []) := by
  induction l generalizing d with
  | nil => rfl
  | cons f l ih =>
    have hr := h f (List.mem_cons_self f l)
    simp only [setLoop, hr]
    exact ih (fun g hg => h g (List.mem_cons_of_mem f hg)) d

theorem appendLoop_families (fs : String → Option (List Nat)) (l : List FoundFont)
    (d : FontDefinitions) : (appendLoop fs d l).1.families = d.families := by
  induction l generalizing d with
  | nil => rfl
  | cons f l ih =>
    by_cases hc : containsKey d.font_data f.key
    · simp only [appendLoop, if_pos hc]
      exact ih d
    · cases hr : read_font_bytes fs f.source with
      | none =>
        simp only [appendLoop, if_neg hc, hr]
        exact ih d
      | some bytes =>
        simp only [appendLoop, if_neg hc, hr]
        have h := ih { d with font_data := btInsert f.key bytes d.font_data }
        rcases hsl : appendLoop fs { d with font_data := btInsert f.key bytes d.font_data } l
          with ⟨a, b, c⟩
        rw [hsl] at h
        exact h

theorem appendLoop_contains_mono (fs : String → Option (List Nat)) (l : List FoundFont)
    (d : FontDefinitions) (k : String) (h : containsKey d.font_data k) :
    containsKey (appendLoop fs d l).1.font_data k := by
  induction l generalizing d with
  | nil => exact h
  | cons f l ih =>
    by_cases hc : containsKey d.font_data f.key
    · simp only [appendLoop, if_pos hc]
      exact ih d h
    · cases hr : read_font_bytes fs f.source with
      | none =>
        simp only [appendLoop, if_neg hc, hr]
        exact ih d h
      | some bytes =>
        simp only [appendLoop, if_neg hc, hr]
        have h2 := ih { d with font_data := btInsert f.key bytes d.font_data }
          (mem_keysOf_btInsert.2 (Or.inr h))
        rcases hsl : appendLoop fs { d with font_data := btInsert f.key bytes d.font_data } l
          with ⟨a, b, c⟩
        rw [hsl] at h2
        exact h2

theorem appendLoop_keys_contains (fs : String → Option (List Nat)) (l : List FoundFont)
    (d : FontDefinitions) (k : String) (h : k ∈ (appendLoop fs d l).2.2) :
    containsKey (appendLoop fs d l).1.font_data k := by
  induction l generalizing d with
  | nil => simp [appendLoop] at h
  | cons f l ih =>
    by_cases hc : containsKey d.font_data f.key
    · simp only [appendLoop, if_pos hc] at h ⊢
      exact ih d h
    · cases hr : read_font_bytes fs f.source with
      | none =>
        simp only [appendLoop, if_neg hc, hr] at h ⊢
        exact ih d h
      | some bytes =>
        simp only [appendLoop, if_neg hc, hr] at h ⊢
        rcases hsl : appendLoop fs { d with font_data := btInsert f.key bytes d.font_data } l
          with ⟨a, b, c⟩
        rw [hsl] at h
        rcases List.mem_cons.1 h with hk | hk
        · subst hk
          have h2 := appendLoop_contains_mono fs l
            { d with font_data := btInsert f.key bytes d.font_data } f.key
            (mem_keysOf_btInsert.2 (Or.inl rfl))
          rw [hsl] at h2
          exact h2
        · have h2 := ih { d with font_data := btInsert f.key bytes d.font_data }
          rw [hsl] at h2
          exact h2 hk

theorem appendLoop_lookup_mono (fs : String → Option (List Nat)) (l : List FoundFont)
    (d : FontDefinitions) (k : String) (v : List Nat)
    (h : lookupFD d.font_data k = some v) :
    lookupFD (appendLoop fs d l).1.font_data k = some v := by
  induction l generalizing d with
  | nil => exact h
  | cons f l ih =>
    by_cases hc : containsKey d.font_data f.key
    · simp only [appendLoop, if_pos hc]
      exact ih d h
    · cases hr : read_font_bytes fs f.source with
      | none =>
        simp only [appendLoop, if_neg hc, hr]
        exact ih d h
      | some bytes =>
        simp only [appendLoop, if_neg hc, hr]
        have hk : k ≠ f.key := by
          intro he
          exact hc (he ▸ lookupFD_some_mem h)
        have h2 := ih { d with font_data := btInsert f.key bytes d.font_data }
          ((lookupFD_btInsert_ne hk).trans h)
        rcases hsl : appendLoop fs { d with font_data := btInsert f.key bytes d.font_data } l
          with ⟨a, b, c⟩
        rw [hsl] at h2
        exact h2

theorem appendLoop_skip_contains (fs : String → Option (List Nat)) (f : FoundFont)
    (post : List FoundFont) (pre : List FoundFont) (d : FontDefinitions)
    (h : containsKey d.font_data f.key) :
    appendLoop fs d (pre ++ f :: post) = appendLoop fs d (pre ++ post) := by
  induction pre generalizing d with
  | nil =>
    simp only [List.nil_append, appendLoop, if_pos h]
  | cons g pre ih =>
    by_cases hc : containsKey d.font_data g.key
    · simp only [List.cons_append, appendLoop, if_pos hc]
      exact ih d h
    · cases hr : read_font_bytes fs g.source with
      | none =>
        simp only [List.cons_append, appendLoop, if_neg hc, hr]
        exact ih d h
      | some bytes =>
        simp only [List.cons_append, appendLoop, if_neg hc, hr, List.append_eq]
        rw [ih { d with font_data := btInsert g.key bytes d.font_data }
          (mem_keysOf_btInsert.2 (Or.inr h))]

theorem appendLoop_skip_fail (fs : String → Option (List Nat)) (f : FoundFont)
    (post : List FoundFont) (hf : read_font_bytes fs f.source = none)
    (pre : List FoundFont) (d : FontDefinitions) :
    appendLoop fs d (pre ++ f :: post) = appendLoop fs d (pre ++ post) := by
  induction pre generalizing d with
  | nil =>
    by_cases hc : containsKey d.font_data f.key
    · simp only [List.nil_append, appendLoop, if_pos hc]
    · simp only [List.nil_append, appendLoop, if_neg hc, hf]
  | cons g pre ih =>
    by_cases hc : containsKey d.font_data g.key
    · simp only [List.cons_append, appendLoop, if_pos hc]
      exact ih d
    · cases hr : read_font_bytes fs g.source with
      | none =>
        simp only [List.cons_append, appendLoop, if_neg hc, hr]
        exact ih d
      | some bytes =>
        simp only [List.cons_append, appendLoop, if_neg hc, hr, List.append_eq]
        rw [ih { d with font_data := btInsert g.key bytes d.font_data }]

theorem appendLoop_allfail (fs : String → Option (List Nat)) (l : List FoundFont)
    (h : ∀ f ∈ l, read_font_bytes fs f.source = none) (d : FontDefinitions) :
    appendLoop fs d l = (d, [], []) := by
  induction l generalizing d with
  | nil => rfl
  | cons f l ih =>
    have hr := h f (List.mem_cons_self f l)
    have htail := fun g hg => h g (List.mem_cons_of_mem f hg)
    by_cases hc : containsKey d.font_data f.key
    · simp only [appendLoop, if_pos hc]
      exact ih htail d
    · simp only [appendLoop, if_neg hc, hr]
      exact ih htail d

theorem appendLoop_names_nil (fs : String → Option (List Nat)) (l : List FoundFont)
    (d : FontDefinitions) (h : (appendLoop fs d l).2.1 = []) :
    appendLoop fs d l = (d, [], []) := by
  induction l generalizing d with
  | nil => rfl
  | cons f l ih =>
    by_cases hc : containsKey d.font_data f.key
    · simp only [appendLoop, if_pos hc] at h ⊢
      exact ih d h
    · cases hr : read_font_bytes fs f.source with
      | none =>
        simp only [appendLoop, if_neg hc, hr] at h ⊢
        exact ih d h
      | some bytes =>
        simp only [appendLoop, if_neg hc, hr] at h ⊢
        rcases hsl : appendLoop fs { d with font_data := btInsert f.key bytes d.font_data } l
          with ⟨a, b, c⟩
        rw [hsl] at h
        simp at h

theorem appendLoop_keys_of_success (fs : String → Option (List Nat)) (l : List FoundFont)
    (d : FontDefinitions) (h : ∀ f ∈ l, (read_font_bytes fs f.source).isSome) :
    (appendLoop fs d l).2.2 = dedupSeen (keysOf d.font_data) (l.map FoundFont.key) := by
  induction l generalizing d with
  | nil => rfl
  | cons f l ih =>
    have htail := fun g hg => h g (List.mem_cons_of_mem f hg)
    by_cases hc : containsKey d.font_data f.key
    · simp only [appendLoop, if_pos hc, List.map_cons]
      rw [ih d htail]
      conv_rhs => rw [dedupSeen]
      rw [if_pos (show f.key ∈ keysOf d.font_data from hc)]
    · obtain ⟨bytes, hr⟩ := Option.isSome_iff_exists.1 (h f (List.mem_cons_self f l))
      simp only [appendLoop, if_neg hc, hr, List.map_cons]
      rcases hsl : appendLoop fs { d with font_data := btInsert f.key bytes d.font_data } l
        with ⟨a, b, c⟩
      conv_rhs => rw [dedupSeen]
      rw [if_neg (show f.key ∈ keysOf d.font_data → False from hc)]
      have h2 := ih { d with font_data := btInsert f.key bytes d.font_data } htail
      rw [hsl] at h2
      rw [h2, dedupSeen_congr (l.map FoundFont.key)
        (keysOf (btInsert f.key bytes d.font_data)) (f.key :: keysOf d.font_data)
        (fun x => by rw [List.mem_cons]; exact mem_keysOf_btInsert)]

theorem loadedFonts_of_success (fs : String → Option (List Nat)) (fonts : List FoundFont)
    (h : ∀ f ∈ fonts, (read_font_bytes fs f.source).isSome = true) :
    loadedFonts fs fonts = fonts :=
  List.filter_eq_self.2 h

theorem loadedNames_nil_iff (fs : String → Option (List Nat)) (fonts : List FoundFont) :
    loadedNames fs fonts = [] ↔ loadedKeys fs fonts = [] := by
  unfold loadedNames loadedKeys
  simp

theorem set_found_fonts_of_empty (fs : String → Option (List Nat)) (ctx : Context)
    (fonts : List FoundFont) (h : loadedNames fs fonts = []) :
    set_found_fonts fs ctx fonts = (ctx, []) := by
  have hb := setLoop_names fs fonts FontDefinitions.default
  unfold set_found_fonts
  rcases hsl : setLoop fs FontDefinitions.default fonts with ⟨a, b, c⟩
  rw [hsl] at hb
  dsimp only
  rw [if_pos (hb.trans h)]

theorem set_found_fonts_of_installed (fs : String → Option (List Nat)) (ctx : Context)
    (fonts : List FoundFont) (h : loadedNames fs fonts ≠ []) :
    set_found_fonts fs ctx fonts =
      (Context.set_fonts ctx ((loadedKeys fs fonts).reverse.foldl frontStep
          (setLoop fs FontDefinitions.default fonts).1),
        loadedNames fs fonts) := by
  have hb := setLoop_names fs fonts FontDefinitions.default
  have hc := setLoop_keys fs fonts FontDefinitions.default
  unfold set_found_fonts
  rcases hsl : setLoop fs FontDefinitions.default fonts with ⟨a, b, c⟩
  rw [hsl] at hb hc
  dsimp only at hb hc ⊢
  rw [if_neg (fun hn => h (hb.symm.trans hn)), hb, hc]

theorem set_found_fonts_families_P (fs : String → Option (List Nat)) (ctx : Context)
    (fonts : List FoundFont) (h : loadedNames fs fonts ≠ []) :
    (set_found_fonts fs ctx fonts).1.active.families FontFamily.Proportional =
      consFold [] (loadedKeys fs fonts).reverse := by
  rw [set_found_fonts_of_installed fs ctx fonts h]
  show ((loadedKeys fs fonts).reverse.foldl frontStep
      (setLoop fs FontDefinitions.default fonts).1).families FontFamily.Proportional = _
  rw [foldl_frontStep_families_P, setLoop_families]
  rfl

theorem set_found_fonts_families_M (fs : String → Option (List Nat)) (ctx : Context)
    (fonts : List FoundFont) (h : loadedNames fs fonts ≠ []) :
    (set_found_fonts fs ctx fonts).1.active.families FontFamily.Monospace =
      consFold [] (loadedKeys fs fonts).reverse := by
  rw [set_found_fonts_of_installed fs ctx fonts h]
  show ((loadedKeys fs fonts).reverse.foldl frontStep
      (setLoop fs FontDefinitions.default fonts).1).families FontFamily.Monospace = _
  rw [foldl_frontStep_families_M, setLoop_families]
  rfl

theorem set_found_fonts_families_other (fs : String → Option (List Nat)) (ctx : Context)
    (fonts : List FoundFont) (h : loadedNames fs fonts ≠ []) (g : FontFamily)
    (hP : g ≠ FontFamily.Proportional) (hM : g ≠ FontFamily.Monospace) :
    (set_found_fonts fs ctx fonts).1.active.families g = [] := by
  rw [set_found_fonts_of_installed fs ctx fonts h]
  show ((loadedKeys fs fonts).reverse.foldl frontStep
      (setLoop fs FontDefinitions.default fonts).1).families g = _
  rw [foldl_frontStep_families_other _ _ g hP hM, setLoop_families]
  rfl

theorem set_found_fonts_font_data (fs : String → Option (List Nat)) (ctx : Context)
    (fonts : List FoundFont) (h : loadedNames fs fonts ≠ []) :
    (set_found_fonts fs ctx fonts).1.active.font_data =
      (setLoop fs FontDefinitions.default fonts).1.font_data := by
  rw [set_found_fonts_of_installed fs ctx fonts h]
  show ((loadedKeys fs fonts).reverse.foldl frontStep
      (setLoop fs FontDefinitions.default fonts).1).font_data = _
  rw [foldl_frontStep_font_data]

theorem append_found_fonts_snd (fs : String → Option (List Nat)) (defs : FontDefinitions)
    (fonts : List FoundFont) :
    (append_found_fonts fs defs fonts).2 = (appendLoop fs defs fonts).2.1 := by
  unfold append_found_fonts
  rcases haf : appendLoop fs defs fonts with ⟨d1, names, keys⟩
  dsimp only
  by_cases hn : names = []
  · rw [if_pos hn, hn]
  · rw [if_neg hn]

theorem append_found_fonts_font_data (fs : String → Option (List Nat))
    (defs : FontDefinitions) (fonts : List FoundFont) :
    (append_found_fonts fs defs fonts).1.font_data = (appendLoop fs defs fonts).1.font_data := by
  unfold append_found_fonts
  rcases haf : appendLoop fs defs fonts with ⟨d1, names, keys⟩
  dsimp only
  by_cases hn : names = []
  · rw [if_pos hn]
  · rw [if_neg hn]
    show (keys.foldl backStep d1).font_data = d1.font_data
    rw [foldl_backStep_font_data]

theorem append_found_fonts_families_P (fs : String → Option (List Nat))
    (defs : FontDefinitions) (fonts : List FoundFont) :
    (append_found_fonts fs defs fonts).1.families FontFamily.Proportional =
      pushFold (defs.families FontFamily.Proportional) (appendLoop fs defs fonts).2.2 := by
  have hfam := appendLoop_families fs fonts defs
  unfold append_found_fonts
  rcases haf : appendLoop fs defs fonts with ⟨d1, names, keys⟩
  rw [haf] at hfam
  dsimp only at hfam ⊢
  by_cases hn : names = []
  · rw [if_pos hn]
    have hz := appendLoop_names_nil fs fonts defs (by rw [haf]; exact hn)
    rw [haf] at hz
    have h1 : d1 = defs := congrArg Prod.fst hz
    have h3 : keys = [] := congrArg (fun p => p.2.2) hz
    rw [h1, h3]
    rfl
  · rw [if_neg hn]
    show (keys.foldl backStep d1).families FontFamily.Proportional = _
    rw [foldl_backStep_families_P, hfam]

theorem append_found_fonts_families_M (fs : String → Option (List Nat))
    (defs : FontDefinitions) (fonts : List FoundFont) :
    (append_found_fonts fs defs fonts).1.families FontFamily.Monospace =
      pushFold (defs.families FontFamily.Monospace) (appendLoop fs defs fonts).2.2 := by
  have hfam := appendLoop_families fs fonts defs
  unfold append_found_fonts
  rcases haf : appendLoop fs defs fonts with ⟨d1, names, keys⟩
  rw [haf] at hfam
  dsimp only at hfam ⊢
  by_cases hn : names = []
  · rw [if_pos hn]
    have hz := appendLoop_names_nil fs fonts defs (by rw [haf]; exact hn)
    rw [haf] at hz
    have h1 : d1 = defs := congrArg Prod.fst hz
    have h3 : keys = [] := congrArg (fun p => p.2.2) hz
    rw [h1, h3]
    rfl
  · rw [if_neg hn]
    show (keys.foldl backStep d1).families FontFamily.Monospace = _
    rw [foldl_backStep_families_M, hfam]

theorem append_found_fonts_families_other (fs : String → Option (List Nat))
    (defs : FontDefinitions) (fonts : List FoundFont) (g : FontFamily)
    (hP : g ≠ FontFamily.Proportional) (hM : g ≠ FontFamily.Monospace) :
    (append_found_fonts fs defs fonts).1.families g = defs.families g := by
  have hfam := appendLoop_families fs fonts defs
  unfold append_found_fonts
  rcases haf : appendLoop fs defs fonts with ⟨d1, names, keys⟩
  rw [haf] at hfam
  dsimp only at hfam ⊢
  by_cases hn : names = []
  · rw [if_pos hn]
    show d1.families g = defs.families g
    rw [hfam]
  · rw [if_neg hn]
    show (keys.foldl backStep d1).families g = _
    rw [foldl_backStep_families_other _ _ g hP hM, hfam]

/-- Claim C2: replace-mode install starts from an empty `FontDefinitions`:
for the two-candidate input where key "noto-kr" (family "Noto Sans KR")
loads successfully and key "noto-jp" fails to load, the call returns
exactly ["Noto Sans KR"], the Proportional sequence has "noto-kr" at index
0, and the resulting font-data map contains exactly the single key
"noto-kr". -/
theorem set_scenario_noto :
    (set_found_fonts notoFs ctx0 notoFonts).2 = ["Noto Sans KR"] ∧
    (set_found_fonts notoFs ctx0 notoFonts).1.active.families FontFamily.Proportional
      = ["noto-kr"] ∧
    keysOf (set_found_fonts notoFs ctx0 notoFonts).1.active.font_data = ["noto-kr"] := by
  refine ⟨?_, ?_, ?_⟩ <;> decide

/-- Claim C4: if every candidate's byte load fails (in particular if the
candidate list is empty), extend-mode install returns the empty list and
leaves the caller-supplied definitions deeply unchanged, and replace-mode
install returns the empty list leaving the context untouched. -/
theorem no_op_on_total_failure (fs : String → Option (List Nat)) (ctx : Context)
    (defs : FontDefinitions) (fonts : List FoundFont)
    (h : ∀ f ∈ fonts, read_font_bytes fs f.source = none) :
    append_found_fonts fs defs fonts = (defs, []) ∧
    set_found_fonts fs ctx fonts = (ctx, []) := by
  constructor
  · unfold append_found_fonts
    rw [appendLoop_allfail fs fonts h defs]
    rfl
  · have he : loadedNames fs fonts = [] := by
      unfold loadedNames loadedFonts
      have hnil : fonts.filter (fun f => (read_font_bytes fs f.source).isSome) = [] := by
        rw [List.filter_eq_nil_iff]
        intro f hf
        simp [h f hf]
      rw [hnil]
      rfl
    exact set_found_fonts_of_empty fs ctx fonts he

/-- Claim C4 witness: on a filesystem where every read fails, a one-path
candidate list installs nothing and leaves both the definitions and the
context unchanged. -/
theorem no_op_on_total_failure_witness :
    append_found_fonts fsNone defsX [⟨"a", "A", .Path "missing.ttf"⟩] = (defsX, []) ∧
    set_found_fonts fsNone ctx0 [⟨"a", "A", .Path "missing.ttf"⟩] = (ctx0, []) :=
  no_op_on_total_failure fsNone ctx0 defsX [⟨"a", "A", .Path "missing.ttf"⟩] (by decide)

/-- Claim C7: extend-mode install skips entirely every candidate whose key
is already present in the caller-supplied font-data map: the result is the
same as if that candidate were absent from the list, so its byte source is
never read, its key is never appended to any role sequence and it
contributes no family name to the returned list. -/
theorem extend_skips_existing_key (fs : String → Option (List Nat)) (defs : FontDefinitions)
    (pre post : List FoundFont) (f : FoundFont) (h : containsKey defs.font_data f.key) :
    append_found_fonts fs defs (pre ++ f :: post) = append_found_fonts fs defs (pre ++ post) := by
  unfold append_found_fonts
  rw [appendLoop_skip_contains fs f post pre defs h]

/-- Claim C7 witness: a candidate whose key "x" is already stored is
skipped by extend-mode install. -/
theorem extend_skips_existing_key_witness :
    append_found_fonts fsNone defsX
        ([⟨"a", "A", .Bytes [1]⟩] ++ ⟨"x", "X", .Bytes [9]⟩ :: [⟨"b", "B", .Bytes [2]⟩]) =
      append_found_fonts fsNone defsX ([⟨"a", "A", .Bytes [1]⟩] ++ [⟨"b", "B", .Bytes [2]⟩]) :=
  extend_skips_existing_key fsNone defsX [⟨"a", "A", .Bytes [1]⟩] [⟨"b", "B", .Bytes [2]⟩]
    ⟨"x", "X", .Bytes [9]⟩ (by decide)

/-- Claim C9: the font loader is total over its `Option` result: a `Path`
source returns exactly what the filesystem read yields (`none` on any I/O
error), a `Bytes` source always returns `some` copy of the embedded
buffer, and a candidate whose load fails is silently skipped by both
install modes without aborting the batch. -/
theorem read_font_bytes_total (fs : String → Option (List Nat)) :
    (∀ p, read_font_bytes fs (FoundFontSource.Path p) = fs p) ∧
    (∀ b, read_font_bytes fs (FoundFontSource.Bytes b) = some b) ∧
    (∀ ctx (pre post : List FoundFont) (f : FoundFont),
      read_font_bytes fs f.source = none →
      set_found_fonts fs ctx (pre ++ f :: post) = set_found_fonts fs ctx (pre ++ post)) ∧
    (∀ defs (pre post : List FoundFont) (f : FoundFont),
      read_font_bytes fs f.source = none →
      append_found_fonts fs defs (pre ++ f :: post) = append_found_fonts fs defs (pre ++ post)) := by
  refine ⟨fun p => rfl, fun b => rfl, ?_, ?_⟩
  · intro ctx pre post f hf
    unfold set_found_fonts
    rw [setLoop_skip fs f post hf pre]
  · intro defs pre post f hf
    unfold append_found_fonts
    rw [appendLoop_skip_fail fs f post hf pre]

/-- Claim C9 witness: a candidate whose path read fails is skipped by both
install modes, leaving the result equal to the batch without it. -/
theorem read_font_bytes_total_witness :
    read_font_bytes fsNone (FoundFontSource.Path "missing.ttf") = none ∧
    set_found_fonts fsNone ctx0 ([] ++ ⟨"m", "M", .Path "missing.ttf"⟩ :: abcFonts) =
      set_found_fonts fsNone ctx0 ([] ++ abcFonts) :=
  ⟨(read_font_bytes_total fsNone).1 "missing.ttf",
    (read_font_bytes_total fsNone).2.2.1 ctx0 [] abcFonts ⟨"m", "M", .Path "missing.ttf"⟩ rfl⟩

/-- Claim C3: for every candidate list (hence for every selection mode,
whose resolvers only choose this list) and both policies, the context
receives a `set_fonts` commit call (its commit count increases by one) if
and only if the returned installed-names list is non-empty; when the list
is empty the context, including its active fonts, is left unchanged. -/
theorem commit_gating (fs : String → Option (List Nat)) (ctx : Context)
    (defs : FontDefinitions) (fonts : List FoundFont) :
    (((set_found_fonts fs ctx fonts).2 ≠ [] →
        (set_found_fonts fs ctx fonts).1.commits = ctx.commits + 1) ∧
      ((set_found_fonts fs ctx fonts).2 = [] → (set_found_fonts fs ctx fonts).1 = ctx)) ∧
    (((extend_found_fonts fs ctx defs fonts).2.2 ≠ [] →
        (extend_found_fonts fs ctx defs fonts).1.commits = ctx.commits + 1) ∧
      ((extend_found_fonts fs ctx defs fonts).2.2 = [] →
        (extend_found_fonts fs ctx defs fonts).1 = ctx)) := by
  constructor
  · by_cases he : loadedNames fs fonts = []
    · rw [set_found_fonts_of_empty fs ctx fonts he]
      exact ⟨fun h => absurd rfl h, fun _ => rfl⟩
    · rw [set_found_fonts_of_installed fs ctx fonts he]
      exact ⟨fun _ => rfl, fun h => absurd h he⟩
  · unfold extend_found_fonts
    rcases haf : append_found_fonts fs defs fonts with ⟨d2, names⟩
    dsimp only
    by_cases hn : names = []
    · rw [if_pos hn]
      exact ⟨fun h => absurd hn h, fun _ => rfl⟩
    · rw [if_neg hn]
      exact ⟨fun _ => rfl, fun h => absurd h hn⟩

/-- Claim C3 witness: with all loads failing nothing is committed and the
context is unchanged; committing is checked on the failing side of the
gate at a concrete input. -/
theorem commit_gating_witness :
    ((set_found_fonts fsNone ctx0 [⟨"a", "A", .Path "missing.ttf"⟩]).2 = [] →
      (set_found_fonts fsNone ctx0 [⟨"a", "A", .Path "missing.ttf"⟩]).1 = ctx0) ∧
    ((set_found_fonts fsNone ctx0 abcFonts).2 ≠ [] →
      (set_found_fonts fsNone ctx0 abcFonts).1.commits = ctx0.commits + 1) ∧
    (set_found_fonts fsNone ctx0 abcFonts).2 ≠ [] ∧
    (set_found_fonts fsNone ctx0 abcFonts).1.commits = ctx0.commits + 1 :=
  ⟨(commit_gating fsNone ctx0 defsX [⟨"a", "A", .Path "missing.ttf"⟩]).1.2,
    (commit_gating fsNone ctx0 defsX abcFonts).1.1,
    by decide,
    (commit_gating fsNone ctx0 defsX abcFonts).1.1 (by decide)⟩

/-- Claim C1 (counterexample): for the candidate list with keys
[a, b, a] (all loading successfully), replace-mode install produces the
Proportional sequence ["b", "a"]: the duplicated key "a" does not keep the
position of its first occurrence (which would give ["a", "b"]), so "first
occurrence wins positionally" fails for replace-mode install. -/
theorem dup_key_first_occurrence_counterexample :
    (set_found_fonts fsNone ctx0 dupFonts).1.active.families FontFamily.Proportional
        = ["b", "a"] ∧
    (set_found_fonts fsNone ctx0 dupFonts).1.active.families FontFamily.Proportional
        ≠ ["a", "b"] ∧
    dupFonts.map FoundFont.key = ["a", "b", "a"] :=
  ⟨by decide, by decide, by decide⟩

/-- Claim C1 (amended): for every candidate list all of whose candidates
load successfully, each key appears at most once in each role sequence in
both modes; extend-mode install (on definitions satisfying the structural
invariants) appends each not-yet-installed key at the position of its
first occurrence in resolver order, while replace-mode install places each
key at the position of its last occurrence in resolver order (the reversed
front-insertion loop keeps the last occurrence positionally). -/
theorem dup_key_positions_amended (fs : String → Option (List Nat)) (ctx : Context)
    (defs0 : FontDefinitions) (fonts : List FoundFont)
    (hload : ∀ f ∈ fonts, (read_font_bytes fs f.source).isSome = true)
    (hne : fonts ≠ []) (hOK : famKeysOK defs0) (hnd : famNodup defs0) :
    ((set_found_fonts fs ctx fonts).1.active.families FontFamily.Proportional =
        dedupKeepLast (fonts.map FoundFont.key) ∧
      (set_found_fonts fs ctx fonts).1.active.families FontFamily.Monospace =
        dedupKeepLast (fonts.map FoundFont.key) ∧
      (dedupKeepLast (fonts.map FoundFont.key)).Nodup) ∧
    ((append_found_fonts fs defs0 fonts).1.families FontFamily.Proportional =
        defs0.families FontFamily.Proportional ++
          dedupSeen (keysOf defs0.font_data) (fonts.map FoundFont.key) ∧
      (append_found_fonts fs defs0 fonts).1.families FontFamily.Monospace =
        defs0.families FontFamily.Monospace ++
          dedupSeen (keysOf defs0.font_data) (fonts.map FoundFont.key) ∧
      ((append_found_fonts fs defs0 fonts).1.families FontFamily.Proportional).Nodup ∧
      ((append_found_fonts fs defs0 fonts).1.families FontFamily.Monospace).Nodup) := by
  have hkeys : loadedKeys fs fonts = fonts.map FoundFont.key := by
    rw [loadedKeys, loadedFonts_of_success fs fonts hload]
  have hnames : loadedNames fs fonts = fonts.map FoundFont.family := by
    rw [loadedNames, loadedFonts_of_success fs fonts hload]
  have hnn : loadedNames fs fonts ≠ [] := by
    rw [hnames]
    intro hmap
    exact hne (List.map_eq_nil_iff.1 hmap)
  have hK := appendLoop_keys_of_success fs fonts defs0 hload
  have hdisj : ∀ g, ∀ x ∈ dedupSeen (keysOf defs0.font_data) (fonts.map FoundFont.key),
      x ∉ defs0.families g := by
    intro g x hx hmem
    exact dedupSeen_not_mem_seen hx (hOK g x hmem)
  refine ⟨⟨?_, ?_, ?_⟩, ?_, ?_, ?_, ?_⟩
  · rw [set_found_fonts_families_P fs ctx fonts hnn, hkeys, consFold_eq_dedupSeen]
    simp [dedupKeepLast]
  · rw [set_found_fonts_families_M fs ctx fonts hnn, hkeys, consFold_eq_dedupSeen]
    simp [dedupKeepLast]
  · exact List.nodup_reverse.2 (dedupSeen_nodup _ _)
  · rw [append_found_fonts_families_P, hK]
    exact pushFold_of_disjoint_nodup (hdisj FontFamily.Proportional) (dedupSeen_nodup _ _)
  · rw [append_found_fonts_families_M, hK]
    exact pushFold_of_disjoint_nodup (hdisj FontFamily.Monospace) (dedupSeen_nodup _ _)
  · rw [append_found_fonts_families_P, hK]
    exact pushFold_nodup (hnd FontFamily.Proportional)
  · rw [append_found_fonts_families_M, hK]
    exact pushFold_nodup (hnd FontFamily.Monospace)

/-- Claim C1 (amended) witness: the amended positional rule evaluated on
the duplicated candidate list [a, b, a]. -/
theorem dup_key_positions_amended_witness :
    ((set_found_fonts fsNone ctx0 dupFonts).1.active.families FontFamily.Proportional =
        dedupKeepLast (dupFonts.map FoundFont.key) ∧
      (set_found_fonts fsNone ctx0 dupFonts).1.active.families FontFamily.Monospace =
        dedupKeepLast (dupFonts.map FoundFont.key) ∧
      (dedupKeepLast (dupFonts.map FoundFont.key)).Nodup) ∧
    ((append_found_fonts fsNone FontDefinitions.default dupFonts).1.families
          FontFamily.Proportional =
        FontDefinitions.default.families FontFamily.Proportional ++
          dedupSeen (keysOf FontDefinitions.default.font_data) (dupFonts.map FoundFont.key) ∧
      (append_found_fonts fsNone FontDefinitions.default dupFonts).1.families
          FontFamily.Monospace =
        FontDefinitions.default.families FontFamily.Monospace ++
          dedupSeen (keysOf FontDefinitions.default.font_data) (dupFonts.map FoundFont.key) ∧
      ((append_found_fonts fsNone FontDefinitions.default dupFonts).1.families
          FontFamily.Proportional).Nodup ∧
      ((append_found_fonts fsNone FontDefinitions.default dupFonts).1.families
          FontFamily.Monospace).Nodup) :=
  dup_key_positions_amended fsNone ctx0 FontDefinitions.default dupFonts (by decide) (by decide)
    (fun g k h => absurd h (List.not_mem_nil k)) (fun g => List.nodup_nil)

/-- Claim C5: for every non-empty candidate list with pairwise distinct
keys, all loading successfully, replace-mode install produces a
Proportional sequence equal to the key list in resolver priority order
(so the keys keep their original relative order: A before B before C). -/
theorem replace_order_preservation (fs : String → Option (List Nat)) (ctx : Context)
    (fonts : List FoundFont)
    (hload : ∀ f ∈ fonts, (read_font_bytes fs f.source).isSome = true)
    (hnd : (fonts.map FoundFont.key).Nodup) (hne : fonts ≠ []) :
    (set_found_fonts fs ctx fonts).1.active.families FontFamily.Proportional =
      fonts.map FoundFont.key := by
  have hkeys : loadedKeys fs fonts = fonts.map FoundFont.key := by
    rw [loadedKeys, loadedFonts_of_success fs fonts hload]
  have hnames : loadedNames fs fonts = fonts.map FoundFont.family := by
    rw [loadedNames, loadedFonts_of_success fs fonts hload]
  have hnn : loadedNames fs fonts ≠ [] := by
    rw [hnames]
    intro hmap
    exact hne (List.map_eq_nil_iff.1 hmap)
  rw [set_found_fonts_families_P fs ctx fonts hnn, hkeys,
    consFold_of_disjoint_nodup (fun x hx => List.not_mem_nil x) (List.nodup_reverse.2 hnd)]
  simp

/-- Claim C5 witness: replace-mode install of the three distinct-key
candidates [a, b, c] keeps resolver order in the Proportional sequence. -/
theorem replace_order_preservation_witness :
    (set_found_fonts fsNone ctx0 abcFonts).1.active.families FontFamily.Proportional =
      abcFonts.map FoundFont.key :=
  replace_order_preservation fsNone ctx0 abcFonts (by decide) (by decide) (by decide)

/-- Claim C6: extending definitions whose Proportional sequence is [X]
with two successfully loading candidates [A, B] whose keys are distinct
from each other, from X, and absent from the font-data map, yields the
Proportional sequence [X, A.key, B.key]: existing entries keep their
priority and new keys are appended at the back in resolver order. -/
theorem extend_order_preservation (fs : String → Option (List Nat)) (defs : FontDefinitions)
    (X : String) (A B : FoundFont)
    (hfam : defs.families FontFamily.Proportional = [X])
    (hA : ¬containsKey defs.font_data A.key) (hB : ¬containsKey defs.font_data B.key)
    (hAB : A.key ≠ B.key) (hXA : A.key ≠ X) (hXB : B.key ≠ X)
    (hlA : (read_font_bytes fs A.source).isSome = true)
    (hlB : (read_font_bytes fs B.source).isSome = true) :
    (append_found_fonts fs defs [A, B]).1.families FontFamily.Proportional =
      [X, A.key, B.key] := by
  have hload : ∀ f ∈ [A, B], (read_font_bytes fs f.source).isSome = true := by
    intro f hf
    rcases List.mem_cons.1 hf with rfl | hf
    · exact hlA
    · rcases List.mem_cons.1 hf with rfl | hf
      · exact hlB
      · exact absurd hf (List.not_mem_nil f)
  have hK := appendLoop_keys_of_success fs [A, B] defs hload
  have hBmem : B.key ∈ A.key :: keysOf defs.font_data → False := by
    intro hmem
    rcases List.mem_cons.1 hmem with h | h
    · exact hAB h.symm
    · exact hB h
  have hdd : dedupSeen (keysOf defs.font_data) ([A, B].map FoundFont.key) =
      [A.key, B.key] := by
    show dedupSeen (keysOf defs.font_data) [A.key, B.key] = [A.key, B.key]
    rw [dedupSeen, if_neg (show A.key ∈ keysOf defs.font_data → False from hA), dedupSeen,
      if_neg hBmem]
    rfl
  have hd : ∀ x ∈ [A.key, B.key], x ∉ [X] := by
    intro x hx
    rcases List.mem_cons.1 hx with rfl | hx
    · simpa using hXA
    · rcases List.mem_cons.1 hx with rfl | hx
      · simpa using hXB
      · exact absurd hx (List.not_mem_nil x)
  have hn : ([A.key, B.key] : List String).Nodup := by simp [hAB]
  rw [append_found_fonts_families_P, hK, hdd, hfam, pushFold_of_disjoint_nodup hd hn]
  rfl

/-- Claim C6 witness: extending the definitions whose Proportional
sequence is ["x"] with the distinct candidates a and b yields
["x", "a", "b"]. -/
theorem extend_order_preservation_witness :
    (append_found_fonts fsNone defsX
        [⟨"a", "A", .Bytes [1]⟩, ⟨"b", "B", .Bytes [2]⟩]).1.families FontFamily.Proportional =
      ["x", "a", "b"] :=
  extend_order_preservation fsNone defsX "x" ⟨"a", "A", .Bytes [1]⟩ ⟨"b", "B", .Bytes [2]⟩
    (by decide) (by decide) (by decide) (by decide) (by decide) (by decide) rfl rfl

/-- Claim C8: both install modes preserve the two structural invariants:
every key mentioned in any family-role sequence exists in the font-data
map, and no key occurs twice in the same role sequence (for replace mode
the invariants are about the context state the call leaves active). -/
theorem install_preserves_invariants (fs : String → Option (List Nat)) (ctx : Context)
    (defs : FontDefinitions) (fonts : List FoundFont)
    (h1 : famKeysOK defs) (h2 : famNodup defs)
    (hc1 : famKeysOK ctx.active) (hc2 : famNodup ctx.active) :
    (famKeysOK (append_found_fonts fs defs fonts).1 ∧
      famNodup (append_found_fonts fs defs fonts).1) ∧
    (famKeysOK (set_found_fonts fs ctx fonts).1.active ∧
      famNodup (set_found_fonts fs ctx fonts).1.active) := by
  constructor
  · constructor
    · intro g k hk
      rw [append_found_fonts_font_data]
      cases g with
      | Proportional =>
        rw [append_found_fonts_families_P] at hk
        rcases mem_pushFold hk with h | h
        · exact appendLoop_contains_mono fs fonts defs k (h1 _ k h)
        · exact appendLoop_keys_contains fs fonts defs k h
      | Monospace =>
        rw [append_found_fonts_families_M] at hk
        rcases mem_pushFold hk with h | h
        · exact appendLoop_contains_mono fs fonts defs k (h1 _ k h)
        · exact appendLoop_keys_contains fs fonts defs k h
      | Name n =>
        rw [append_found_fonts_families_other fs defs fonts _
          (fun h => FontFamily.noConfusion h) (fun h => FontFamily.noConfusion h)] at hk
        exact appendLoop_contains_mono fs fonts defs k (h1 _ k hk)
    · intro g
      cases g with
      | Proportional =>
        rw [append_found_fonts_families_P]
        exact pushFold_nodup (h2 _)
      | Monospace =>
        rw [append_found_fonts_families_M]
        exact pushFold_nodup (h2 _)
      | Name n =>
        rw [append_found_fonts_families_other fs defs fonts _
          (fun h => FontFamily.noConfusion h) (fun h => FontFamily.noConfusion h)]
        exact h2 _
  · by_cases he : loadedNames fs fonts = []
    · rw [set_found_fonts_of_empty fs ctx fonts he]
      exact ⟨hc1, hc2⟩
    · constructor
      · intro g k hk
        cases g with
        | Proportional =>
          rw [set_found_fonts_families_P fs ctx fonts he] at hk
          rcases mem_consFold hk with h | h
          · exact absurd h (List.not_mem_nil k)
          · rw [set_found_fonts_font_data fs ctx fonts he]
            exact setLoop_contains_of_loaded fs fonts _ k (List.mem_reverse.1 h)
        | Monospace =>
          rw [set_found_fonts_families_M fs ctx fonts he] at hk
          rcases mem_consFold hk with h | h
          · exact absurd h (List.not_mem_nil k)
          · rw [set_found_fonts_font_data fs ctx fonts he]
            exact setLoop_contains_of_loaded fs fonts _ k (List.mem_reverse.1 h)
        | Name n =>
          rw [set_found_fonts_families_other fs ctx fonts he _
            (fun h => FontFamily.noConfusion h) (fun h => FontFamily.noConfusion h)] at hk
          exact absurd hk (List.not_mem_nil k)
      · intro g
        cases g with
        | Proportional =>
          rw [set_found_fonts_families_P fs ctx fonts he]
          exact consFold_nodup List.nodup_nil
        | Monospace =>
          rw [set_found_fonts_families_M fs ctx fonts he]
          exact consFold_nodup List.nodup_nil
        | Name n =>
          rw [set_found_fonts_families_other fs ctx fonts he _
            (fun h => FontFamily.noConfusion h) (fun h => FontFamily.noConfusion h)]
          exact List.nodup_nil

/-- Claim C8 witness: the invariants hold after installing the distinct
candidate list [a, b, c] into invariant-satisfying inputs, in both
modes. -/
theorem install_preserves_invariants_witness :
    (famKeysOK (append_found_fonts fsNone defsX abcFonts).1 ∧
      famNodup (append_found_fonts fsNone defsX abcFonts).1) ∧
    (famKeysOK (set_found_fonts fsNone ctx0 abcFonts).1.active ∧
      famNodup (set_found_fonts fsNone ctx0 abcFonts).1.active) :=
  install_preserves_invariants fsNone ctx0 defsX abcFonts
    (by
      intro g k hk
      show k ∈ keysOf defsX.font_data
      by_cases hg : g = FontFamily.Proportional
      · subst hg
        have hx : k = "x" := by simpa [defsX] using hk
        subst hx
        decide
      · have hnil : defsX.families g = [] := by simp [defsX, hg]
        rw [hnil] at hk
        exact absurd hk (List.not_mem_nil k))
    (by
      intro g
      by_cases hg : g = FontFamily.Proportional
      · subst hg
        simp [defsX]
      · simp [defsX, hg])
    (fun g k h => absurd h (List.not_mem_nil k))
    (fun g => List.nodup_nil)

/-- Claim C10: extend-mode install touches nothing outside its declared
footprint: pre-existing font-data entries keep their bytes, the
Proportional and Monospace sequences are only extended at the back, and
every other family role is left completely unchanged. -/
theorem extend_frame_conditions (fs : String → Option (List Nat)) (defs : FontDefinitions)
    (fonts : List FoundFont) :
    (∀ k v, lookupFD defs.font_data k = some v →
      lookupFD (append_found_fonts fs defs fonts).1.font_data k = some v) ∧
    (∃ t, (append_found_fonts fs defs fonts).1.families FontFamily.Proportional =
        defs.families FontFamily.Proportional ++ t) ∧
    (∃ t, (append_found_fonts fs defs fonts).1.families FontFamily.Monospace =
        defs.families FontFamily.Monospace ++ t) ∧
    (∀ g, g ≠ FontFamily.Proportional → g ≠ FontFamily.Monospace →
      (append_found_fonts fs defs fonts).1.families g = defs.families g) := by
  refine ⟨?_, ?_, ?_, ?_⟩
  · intro k v h
    rw [append_found_fonts_font_data]
    exact appendLoop_lookup_mono fs fonts defs k v h
  · rw [append_found_fonts_families_P]
    exact ⟨_, pushFold_eq_dedupSeen _ _⟩
  · rw [append_found_fonts_families_M]
    exact ⟨_, pushFold_eq_dedupSeen _ _⟩
  · intro g hP hM
    exact append_found_fonts_families_other fs defs fonts g hP hM

/-- Claim C10 witness: after extending, the pre-existing entry for "x"
keeps its bytes, the Proportional sequence is the old one plus an appended
tail, and a named role is untouched. -/
theorem extend_frame_conditions_witness :
    lookupFD (append_found_fonts fsNone defsX abcFonts).1.font_data "x" = some [7] ∧
    (∃ t, (append_found_fonts fsNone defsX abcFonts).1.families FontFamily.Proportional =
        defsX.families FontFamily.Proportional ++ t) ∧
    (append_found_fonts fsNone defsX abcFonts).1.families (FontFamily.Name "body") =
      defsX.families (FontFamily.Name "body") :=
  ⟨(extend_frame_conditions fsNone defsX abcFonts).1 "x" [7] (by decide),
    (extend_frame_conditions fsNone defsX abcFonts).2.1,
    (extend_frame_conditions fsNone defsX abcFonts).2.2.2 (FontFamily.Name "body")
      (fun h => FontFamily.noConfusion h) (fun h => FontFamily.noConfusion h)⟩
